import Mathlib

/-!
# Petrick's method (`petrick.cpp`)

A shallow embedding of `PetricksMethod::operator()`.  The STL containers are
embedded by their iteration sequence: a `std::set` is the list of its elements
in ascending order of the container's comparison, a `std::vector` is a list.
The insertion functions walk that sequence the way an ordered set does; they
assume, but do not require, that the sequence they receive is ascending.
Separate predicates (`IsTerm`, `IsDNF`, `ValidCNF`) say that a list is the
iteration sequence of a set, and separate lemmas show the operations keep them.
-/

namespace Petrick

/-- Modelled from the spec: `petrick.hpp` is not among the sources.  A
ProductTerm is a set of literals (`std::set` of unsigned indices), embedded as
the ascending sequence of its literals. -/
abbrev ProductTerm := List Nat

/-- Modelled from the spec: `petrick.hpp` is not among the sources.  A DNF is a
set of product terms, embedded as its iteration sequence (ascending in the
lexicographic order of the terms). -/
abbrev DNF := List ProductTerm

/-- Modelled from the spec: `petrick.hpp` is not among the sources.  A CNF is
an ordered sequence (vector) of DNF clauses. -/
abbrev CNF := List DNF

/-- Modelled from the spec: `petrick.hpp` is not among the sources.  The output
is an ordered sequence (vector) of product terms. -/
abbrev ProductTermVector := List ProductTerm

/-- Insertion of one element into an ordered unique container whose strict
order is `less`: the element goes before the first larger element, and is
dropped when an equivalent element is met. -/
def setInsert {α : Type} (less : α → α → Bool) (x : α) : List α → List α
  | [] => [x]
  | y :: ys =>
    if less x y then x :: y :: ys
    else if less y x then y :: setInsert less x ys
    else y :: ys

/-- The order of the literals inside a product term (`std::less` on the
unsigned indices). -/
def literalLess (a b : Nat) : Bool := decide (a < b)

/-- The order of product terms inside a DNF: `operator<` of two sets, which is
`std::lexicographical_compare` over their ascending sequences. -/
def termLess : ProductTerm → ProductTerm → Bool
  | _, [] => false
  | [], _ :: _ => true
  | a :: as, b :: bs =>
    if a < b then true
    else if b < a then false
    else termLess as bs

/-- Range insertion `productTerm.insert(first, last)`: every literal of the
right side is inserted, one after the other, into the copy of the left side
(lines 131 to 133). -/
def unionTerm (productTermLeftSide productTermRightSide : ProductTerm) : ProductTerm :=
  productTermRightSide.foldl (fun productTerm x => setInsert literalLess x productTerm)
    productTermLeftSide

/-- One pass of the outer loop body (lines 122 to 140): starting from an empty
DNF, for every term of the accumulator and every term of the clause, the union
of the two is inserted. -/
def multiply (resultingDNF clause : DNF) : DNF :=
  resultingDNF.foldl
    (fun acc productTermLeftSide =>
      clause.foldl
        (fun acc2 productTermRightSide =>
          setInsert termLess (unionTerm productTermLeftSide productTermRightSide) acc2)
        acc)
    []

/-- The accumulator `resultingDNF` after the multiplication loop (lines 116 to
141), for a CNF whose first clause is `first` and whose remaining clauses are
`rest`. -/
def multiplyOut (first : DNF) (rest : List DNF) : DNF :=
  rest.foldl multiply first

/-- The comparison handed to `std::min_element` on line 146. -/
def sizeLess (left right : ProductTerm) : Bool := decide (left.length < right.length)

/-- Embedding of `std::min_element`: the first element that no other element is
smaller than; `none` stands for the end iterator returned on an empty range. -/
def min_element {α : Type} (less : α → α → Bool) : List α → Option α
  | [] => none
  | x :: xs => some (xs.foldl (fun smallest y => if less y smallest then y else smallest) x)

/-- Modelled from the spec: `narrow_cast` and `uint` are declared outside the
sources; the spec takes `minLength` to be the minimum cardinality itself, so
the conversion keeps the size it receives. -/
def narrow_cast (n : Nat) : Nat := n

end Petrick

namespace PetricksMethod

open Petrick

/-- Embedding of `PetricksMethod::operator()`.  The result is `none` where the
C++ code has no defined behaviour: `cnf[0]` on an empty vector (line 116) and
the dereference of the end iterator that `std::min_element` returns on an empty
accumulator (line 146). -/
def operator (cnf : CNF) : Option ProductTermVector :=
  match cnf with
  | [] => none
  | first :: rest =>
    let resultingDNF := multiplyOut first rest
    match min_element sizeLess resultingDNF with
    | none => none
    | some smallest =>
      let minLength := narrow_cast smallest.length
      some (resultingDNF.filter (fun pt => pt.length == minLength))

end PetricksMethod

namespace Petrick

/-- The sequence is the iteration sequence of a set of literals: strictly
ascending. -/
def IsTerm (t : ProductTerm) : Prop := t.Pairwise (fun a b => a < b)

/-- The sequence is the iteration sequence of a set of product terms: strictly
ascending in the lexicographic order, each element a set of literals. -/
def IsDNF (d : DNF) : Prop :=
  d.Pairwise (fun s t => termLess s t = true) ∧ ∀ t ∈ d, IsTerm t

/-- Every clause of the CNF is a well-formed set of well-formed sets. -/
def ValidCNF (cnf : CNF) : Prop := ∀ d ∈ cnf, IsDNF d

/-- The literal set `S` satisfies the CNF: each clause has a product term whose
literals all lie in `S`. -/
def Covers (S : Finset Nat) (cnf : CNF) : Prop :=
  ∀ clause ∈ cnf, ∃ t ∈ clause, ∀ x ∈ t, x ∈ S

/-- The union of a term of the first clause with one chosen term of each later
clause, formed in the order in which the loop inserts them. -/
def unionAll (L : ProductTerm) (choices : List ProductTerm) : ProductTerm :=
  choices.foldl unionTerm L

instance (t : ProductTerm) : Decidable (IsTerm t) := by
  unfold IsTerm; infer_instance

instance (d : DNF) : Decidable (IsDNF d) := by
  unfold IsDNF; infer_instance

instance (cnf : CNF) : Decidable (ValidCNF cnf) := by
  unfold ValidCNF; infer_instance

instance (S : Finset Nat) (cnf : CNF) : Decidable (Covers S cnf) := by
  unfold Covers; infer_instance

/-! ## Ordered insertion -/

theorem mem_setInsert {α : Type} {less : α → α → Bool}
    (htri : ∀ a b, less a b = false → less b a = false → a = b)
    (x z : α) (l : List α) : z ∈ setInsert less x l ↔ z = x ∨ z ∈ l := by
  induction l with
  | nil => simp [setInsert]
  | cons y ys ih =>
    cases h1 : less x y with
    | true => simp [setInsert, h1]
    | false =>
      cases h2 : less y x with
      | true =>
        simp only [setInsert, h1, h2, if_true, List.mem_cons, ih, Bool.false_eq_true, if_false]
        tauto
      | false =>
        have hxy : x = y := htri x y h1 h2
        subst hxy
        simp [setInsert, h1]

theorem pairwise_setInsert {α : Type} {less : α → α → Bool}
    (htri : ∀ a b, less a b = false → less b a = false → a = b)
    (htrans : ∀ a b c, less a b = true → less b c = true → less a c = true)
    (x : α) (l : List α) (h : l.Pairwise (fun a b => less a b = true)) :
    (setInsert less x l).Pairwise (fun a b => less a b = true) := by
  induction l with
  | nil => simp [setInsert]
  | cons y ys ih =>
    have hy := List.pairwise_cons.1 h
    cases h1 : less x y with
    | true =>
      simp only [setInsert, h1, if_true]
      refine List.Pairwise.cons ?_ h
      intro b hb
      rcases List.mem_cons.1 hb with hb | hb
      · rw [hb]; exact h1
      · exact htrans _ _ _ h1 (hy.1 b hb)
    | false =>
      cases h2 : less y x with
      | true =>
        simp only [setInsert, h1, h2, if_true, Bool.false_eq_true, if_false]
        refine List.Pairwise.cons ?_ (ih hy.2)
        intro b hb
        rcases (mem_setInsert htri x b ys).1 hb with hb | hb
        · rw [hb]; exact h2
        · exact hy.1 b hb
      | false =>
        simp only [setInsert, h1, h2, Bool.false_eq_true, if_false]
        exact h

theorem literalLess_tri (a b : Nat) (h1 : literalLess a b = false)
    (h2 : literalLess b a = false) : a = b := by
  simp [literalLess] at h1 h2
  omega

theorem literalLess_trans (a b c : Nat) (h1 : literalLess a b = true)
    (h2 : literalLess b c = true) : literalLess a c = true := by
  simp [literalLess] at h1 h2 ⊢
  omega

theorem termLess_tri (s t : ProductTerm) (h1 : termLess s t = false)
    (h2 : termLess t s = false) : s = t := by
  induction s generalizing t with
  | nil =>
    cases t with
    | nil => rfl
    | cons b bs => simp [termLess] at h1
  | cons a as ih =>
    cases t with
    | nil => simp [termLess] at h2
    | cons b bs =>
      by_cases hab : a < b
      · simp [termLess, hab] at h1
      · by_cases hba : b < a
        · simp [termLess, hba] at h2
        · have hEq : a = b := by omega
          subst hEq
          simp only [termLess, lt_self_iff_false, if_false] at h1 h2
          rw [ih bs h1 h2]

theorem termLess_trans (s t u : ProductTerm) (h1 : termLess s t = true)
    (h2 : termLess t u = true) : termLess s u = true := by
  induction s generalizing t u with
  | nil =>
    cases u with
    | nil => cases t <;> simp [termLess] at h2
    | cons c cs => simp [termLess]
  | cons a as ih =>
    cases t with
    | nil => simp [termLess] at h1
    | cons b bs =>
      cases u with
      | nil => simp [termLess] at h2
      | cons c cs =>
        by_cases hab : a < b
        · by_cases hbc : b < c
          · have : a < c := by omega
            simp [termLess, this]
          · by_cases hcb : c < b
            · simp [termLess, hbc, hcb] at h2
            · have : a < c := by omega
              simp [termLess, this]
        · by_cases hba : b < a
          · simp [termLess, hab, hba] at h1
          · have hEq : a = b := by omega
            subst hEq
            simp only [termLess, lt_self_iff_false, if_false] at h1
            by_cases hac : a < c
            · simp [termLess, hac]
            · by_cases hca : c < a
              · simp [termLess, hac, hca] at h2
              · simp only [termLess, hac, hca, if_false] at h2 ⊢
                exact ih bs cs h1 h2

theorem termLess_irrefl (s : ProductTerm) : termLess s s = false := by
  induction s with
  | nil => rfl
  | cons a as ih => simp [termLess, ih]

/-! ## Union of two product terms -/

theorem mem_unionTerm (l r : ProductTerm) (x : Nat) :
    x ∈ unionTerm l r ↔ x ∈ l ∨ x ∈ r := by
  unfold unionTerm
  induction r generalizing l with
  | nil => simp
  | cons y ys ih =>
    simp only [List.foldl_cons, ih, mem_setInsert literalLess_tri, List.mem_cons]
    tauto

theorem isTerm_setInsert (x : Nat) (t : ProductTerm) (h : IsTerm t) :
    IsTerm (setInsert literalLess x t) := by
  have h1 : t.Pairwise (fun a b => literalLess a b = true) := by
    refine List.Pairwise.imp ?_ h
    intro a b hab
    simpa [literalLess] using hab
  have h2 := pairwise_setInsert literalLess_tri literalLess_trans x t h1
  refine List.Pairwise.imp ?_ h2
  intro a b hab
  simpa [literalLess] using hab

theorem isTerm_unionTerm (l r : ProductTerm) (h : IsTerm l) : IsTerm (unionTerm l r) := by
  unfold unionTerm
  induction r generalizing l with
  | nil => simpa using h
  | cons y ys ih =>
    simp only [List.foldl_cons]
    exact ih _ (isTerm_setInsert y l h)

theorem isTerm_nodup (t : ProductTerm) (h : IsTerm t) : t.Nodup := by
  refine List.Pairwise.imp ?_ h
  intro a b hab
  exact Nat.ne_of_lt hab

theorem isTerm_ext (s t : ProductTerm) (hs : IsTerm s) (ht : IsTerm t)
    (h : ∀ x, x ∈ s ↔ x ∈ t) : s = t := by
  have hp : s.Perm t := (List.perm_ext_iff_of_nodup (isTerm_nodup s hs) (isTerm_nodup t ht)).2 h
  exact List.eq_of_perm_of_sorted hp hs ht

/-! ## One multiplication step -/

theorem mem_foldl_insertTerm (L : ProductTerm) (clause acc : DNF) (T : ProductTerm) :
    T ∈ clause.foldl (fun acc2 R => setInsert termLess (unionTerm L R) acc2) acc ↔
      T ∈ acc ∨ ∃ R ∈ clause, T = unionTerm L R := by
  induction clause generalizing acc with
  | nil => simp
  | cons R Rs ih =>
    simp only [List.foldl_cons, ih, mem_setInsert termLess_tri, List.mem_cons,
      exists_eq_or_imp]
    tauto

theorem mem_foldl_multiply (resultingDNF clause acc : DNF) (T : ProductTerm) :
    T ∈ resultingDNF.foldl
        (fun acc L => clause.foldl
          (fun acc2 R => setInsert termLess (unionTerm L R) acc2) acc) acc ↔
      T ∈ acc ∨ ∃ L ∈ resultingDNF, ∃ R ∈ clause, T = unionTerm L R := by
  induction resultingDNF generalizing acc with
  | nil => simp
  | cons L Ls ih =>
    simp only [List.foldl_cons, ih, mem_foldl_insertTerm, List.mem_cons, exists_eq_or_imp,
      or_assoc]

theorem mem_multiply (resultingDNF clause : DNF) (T : ProductTerm) :
    T ∈ multiply resultingDNF clause ↔
      ∃ L ∈ resultingDNF, ∃ R ∈ clause, T = unionTerm L R := by
  unfold multiply
  rw [mem_foldl_multiply]
  simp

theorem pairwise_foldl_insertTerm (L : ProductTerm) (clause acc : DNF)
    (h : acc.Pairwise (fun s t => termLess s t = true)) :
    (clause.foldl (fun acc2 R => setInsert termLess (unionTerm L R) acc2) acc).Pairwise
      (fun s t => termLess s t = true) := by
  induction clause generalizing acc with
  | nil => simpa using h
  | cons R Rs ih =>
    simp only [List.foldl_cons]
    exact ih _ (pairwise_setInsert termLess_tri termLess_trans _ _ h)

theorem pairwise_foldl_multiply (resultingDNF clause acc : DNF)
    (h : acc.Pairwise (fun s t => termLess s t = true)) :
    (resultingDNF.foldl
        (fun acc L => clause.foldl
          (fun acc2 R => setInsert termLess (unionTerm L R) acc2) acc) acc).Pairwise
      (fun s t => termLess s t = true) := by
  induction resultingDNF generalizing acc with
  | nil => simpa using h
  | cons L Ls ih =>
    simp only [List.foldl_cons]
    exact ih _ (pairwise_foldl_insertTerm L clause acc h)

theorem pairwise_multiply (resultingDNF clause : DNF) :
    (multiply resultingDNF clause).Pairwise (fun s t => termLess s t = true) :=
  pairwise_foldl_multiply resultingDNF clause [] List.Pairwise.nil

theorem multiply_nil_right (resultingDNF : DNF) : multiply resultingDNF [] = [] := by
  apply List.eq_nil_iff_forall_not_mem.2
  intro T hT
  obtain ⟨_, _, R, hR, _⟩ := (mem_multiply resultingDNF [] T).1 hT
  simp at hR

theorem multiply_nil_left (clause : DNF) : multiply [] clause = [] := rfl

/-! ## The multiplied-out DNF -/

theorem mem_unionAll (L : ProductTerm) (choices : List ProductTerm) (x : Nat) :
    x ∈ unionAll L choices ↔ x ∈ L ∨ ∃ t ∈ choices, x ∈ t := by
  unfold unionAll
  induction choices generalizing L with
  | nil => simp
  | cons R Rs ih =>
    simp only [List.foldl_cons, ih, mem_unionTerm, List.mem_cons, exists_eq_or_imp]
    tauto

theorem isTerm_unionAll (L : ProductTerm) (choices : List ProductTerm) (h : IsTerm L) :
    IsTerm (unionAll L choices) := by
  unfold unionAll
  induction choices generalizing L with
  | nil => simpa using h
  | cons R Rs ih =>
    simp only [List.foldl_cons]
    exact ih _ (isTerm_unionTerm L R h)

theorem mem_multiplyOut (first : DNF) (rest : List DNF) (T : ProductTerm) :
    T ∈ multiplyOut first rest ↔
      ∃ L ∈ first, ∃ choices : List ProductTerm,
        List.Forall₂ (fun t c => t ∈ c) choices rest ∧ T = unionAll L choices := by
  unfold multiplyOut
  induction rest generalizing first with
  | nil =>
    simp [unionAll]
  | cons c cs ih =>
    simp only [List.foldl_cons, ih, mem_multiply]
    constructor
    · rintro ⟨L', ⟨L, hL, R, hR, rfl⟩, choices, hch, rfl⟩
      exact ⟨L, hL, R :: choices, List.Forall₂.cons hR hch, rfl⟩
    · rintro ⟨L, hL, choices, hch, rfl⟩
      cases hch with
      | cons hR hrest =>
        exact ⟨_, ⟨L, hL, _, hR, rfl⟩, _, hrest, rfl⟩

theorem multiplyOut_cons (first c : DNF) (rest : List DNF) :
    multiplyOut first (c :: rest) = multiplyOut (multiply first c) rest := rfl

theorem multiplyOut_append (first : DNF) (rest : List DNF) (c : DNF) :
    multiplyOut first (rest ++ [c]) = multiply (multiplyOut first rest) c := by
  simp [multiplyOut, List.foldl_append]

theorem pairwise_multiplyOut (first : DNF) (rest : List DNF)
    (h : first.Pairwise (fun s t => termLess s t = true)) :
    (multiplyOut first rest).Pairwise (fun s t => termLess s t = true) := by
  induction rest generalizing first with
  | nil => simpa [multiplyOut] using h
  | cons c cs ih =>
    rw [multiplyOut_cons]
    exact ih _ (pairwise_multiply first c)

theorem isTerm_of_mem_multiplyOut (first : DNF) (rest : List DNF)
    (h : ∀ t ∈ first, IsTerm t) (T : ProductTerm) (hT : T ∈ multiplyOut first rest) :
    IsTerm T := by
  obtain ⟨L, hL, choices, _, rfl⟩ := (mem_multiplyOut first rest T).1 hT
  exact isTerm_unionAll L choices (h L hL)

theorem exists_choices {P : ProductTerm → Prop} (rest : List DNF)
    (h : ∀ c ∈ rest, ∃ t ∈ c, P t) :
    ∃ choices : List ProductTerm,
      List.Forall₂ (fun t c => t ∈ c) choices rest ∧ ∀ t ∈ choices, P t := by
  induction rest with
  | nil => exact ⟨[], List.Forall₂.nil, by simp⟩
  | cons c cs ih =>
    obtain ⟨t, htc, hPt⟩ := h c (List.mem_cons_self c cs)
    obtain ⟨choices, hch, hP⟩ := ih (fun d hd => h d (List.mem_cons_of_mem c hd))
    refine ⟨t :: choices, List.Forall₂.cons htc hch, ?_⟩
    intro u hu
    rcases List.mem_cons.1 hu with hu | hu
    · rw [hu]; exact hPt
    · exact hP u hu

theorem choice_of_forall₂ (choices : List ProductTerm) (rest : List DNF)
    (h : List.Forall₂ (fun t c => t ∈ c) choices rest) :
    ∀ c ∈ rest, ∃ t ∈ choices, t ∈ c := by
  induction h with
  | nil => simp
  | cons hR _ ih =>
    intro c hc
    rcases List.mem_cons.1 hc with hc | hc
    · subst hc
      exact ⟨_, List.mem_cons_self _ _, hR⟩
    · obtain ⟨t, ht, htc⟩ := ih c hc
      exact ⟨t, List.mem_cons_of_mem _ ht, htc⟩

/-- Every term of the multiplied-out DNF contains, for each clause, one of the
clause's terms. -/
theorem contains_choice_of_mem_multiplyOut (first : DNF) (rest : List DNF) (T : ProductTerm)
    (hT : T ∈ multiplyOut first rest) :
    ∀ clause ∈ first :: rest, ∃ t ∈ clause, ∀ x ∈ t, x ∈ T := by
  obtain ⟨L, hL, choices, hch, rfl⟩ := (mem_multiplyOut first rest T).1 hT
  intro clause hclause
  rcases List.mem_cons.1 hclause with hc | hc
  · subst hc
    exact ⟨L, hL, fun x hx => (mem_unionAll L choices x).2 (Or.inl hx)⟩
  · obtain ⟨t, ht, htc⟩ := choice_of_forall₂ choices rest hch clause hc
    exact ⟨t, htc, fun x hx => (mem_unionAll L choices x).2 (Or.inr ⟨t, ht, hx⟩)⟩

/-- Every literal set that satisfies the CNF contains a term of the
multiplied-out DNF. -/
theorem exists_mem_multiplyOut_subset (first : DNF) (rest : List DNF) (S : Finset Nat)
    (hS : Covers S (first :: rest)) :
    ∃ U ∈ multiplyOut first rest, ∀ x ∈ U, x ∈ S := by
  obtain ⟨L, hL, hLS⟩ := hS first (List.mem_cons_self _ _)
  obtain ⟨choices, hch, hP⟩ :=
    exists_choices (P := fun t => ∀ x ∈ t, x ∈ S) rest
      (fun c hc => hS c (List.mem_cons_of_mem _ hc))
  refine ⟨unionAll L choices, (mem_multiplyOut first rest _).2 ⟨L, hL, choices, hch, rfl⟩, ?_⟩
  intro x hx
  rcases (mem_unionAll L choices x).1 hx with hx | ⟨t, ht, hx⟩
  · exact hLS x hx
  · exact hP t ht x hx

theorem multiplyOut_ne_nil (first : DNF) (rest : List DNF)
    (h : ∀ c ∈ first :: rest, c ≠ []) : multiplyOut first rest ≠ [] := by
  obtain ⟨L, hL⟩ := List.exists_mem_of_ne_nil first (h first (List.mem_cons_self _ _))
  obtain ⟨choices, hch, _⟩ :=
    exists_choices (P := fun _ => True) rest
      (fun c hc => by
        obtain ⟨t, ht⟩ := List.exists_mem_of_ne_nil c (h c (List.mem_cons_of_mem _ hc))
        exact ⟨t, ht, trivial⟩)
  intro hnil
  have hmem : unionAll L choices ∈ multiplyOut first rest :=
    (mem_multiplyOut first rest _).2 ⟨L, hL, choices, hch, rfl⟩
  rw [hnil] at hmem
  simp at hmem

theorem multiplyOut_eq_nil_of_mem (first : DNF) (rest : List DNF)
    (h : [] ∈ first :: rest) : multiplyOut first rest = [] := by
  apply List.eq_nil_iff_forall_not_mem.2
  intro T hT
  obtain ⟨t, ht, _⟩ := contains_choice_of_mem_multiplyOut first rest T hT [] h
  simp at ht

/-! ## The minimum filter -/

theorem foldl_smallest (xs : List ProductTerm) (x : ProductTerm) :
    xs.foldl (fun smallest y => if sizeLess y smallest then y else smallest) x ∈ x :: xs ∧
      ∀ y ∈ x :: xs,
        (xs.foldl (fun smallest y => if sizeLess y smallest then y else smallest) x).length
          ≤ y.length := by
  induction xs generalizing x with
  | nil => simp
  | cons z zs ih =>
    simp only [List.foldl_cons]
    by_cases hz : z.length < x.length
    · have hs : sizeLess z x = true := by simp [sizeLess, hz]
      simp only [hs, if_true]
      obtain ⟨hmem, hmin⟩ := ih z
      refine ⟨List.mem_cons_of_mem _ hmem, ?_⟩
      intro y hy
      rcases List.mem_cons.1 hy with hy | hy
      · have := hmin z (List.mem_cons_self _ _)
        rw [hy]; omega
      · exact hmin y hy
    · have hs : sizeLess z x = false := by simp [sizeLess, hz]
      simp only [hs, Bool.false_eq_true, if_false]
      obtain ⟨hmem, hmin⟩ := ih x
      refine ⟨?_, ?_⟩
      · rcases List.mem_cons.1 hmem with hm | hm
        · rw [hm]; exact List.mem_cons_self _ _
        · exact List.mem_cons_of_mem _ (List.mem_cons_of_mem _ hm)
      · intro y hy
        rcases List.mem_cons.1 hy with hy | hy
        · rw [hy]; exact hmin x (List.mem_cons_self _ _)
        · rcases List.mem_cons.1 hy with hy | hy
          · have := hmin x (List.mem_cons_self _ _)
            rw [hy]; omega
          · exact hmin y (List.mem_cons_of_mem _ hy)

theorem min_element_sizeLess (d : DNF) (h : d ≠ []) :
    ∃ m, min_element sizeLess d = some m ∧ m ∈ d ∧ ∀ U ∈ d, m.length ≤ U.length := by
  cases d with
  | nil => exact absurd rfl h
  | cons x xs =>
    exact ⟨_, rfl, (foldl_smallest xs x).1, (foldl_smallest xs x).2⟩

theorem operator_cons_eq (first : DNF) (rest : List DNF) (h : multiplyOut first rest ≠ []) :
    ∃ m, (m ∈ multiplyOut first rest ∧ ∀ U ∈ multiplyOut first rest, m.length ≤ U.length) ∧
      PetricksMethod.operator (first :: rest) =
        some ((multiplyOut first rest).filter (fun pt => pt.length == m.length)) := by
  obtain ⟨m, hm, hmem, hmin⟩ := min_element_sizeLess (multiplyOut first rest) h
  refine ⟨m, ⟨hmem, hmin⟩, ?_⟩
  simp only [PetricksMethod.operator, hm, narrow_cast]

theorem operator_cons_none (first : DNF) (rest : List DNF) (h : multiplyOut first rest = []) :
    PetricksMethod.operator (first :: rest) = none := by
  simp only [PetricksMethod.operator, h, min_element]

/-- Under the precondition the call returns, and the returned terms are the
terms of the multiplied-out DNF that no other term of it is shorter than. -/
theorem operator_cons_mem (first : DNF) (rest : List DNF)
    (h : ∀ c ∈ first :: rest, c ≠ []) :
    ∃ v, PetricksMethod.operator (first :: rest) = some v ∧
      ∀ T, T ∈ v ↔
        T ∈ multiplyOut first rest ∧ ∀ U ∈ multiplyOut first rest, T.length ≤ U.length := by
  obtain ⟨m, ⟨hmem, hmin⟩, heq⟩ := operator_cons_eq first rest (multiplyOut_ne_nil first rest h)
  refine ⟨_, heq, ?_⟩
  intro T
  simp only [List.mem_filter, beq_iff_eq]
  constructor
  · rintro ⟨hT, hlen⟩
    exact ⟨hT, fun U hU => by rw [hlen]; exact hmin U hU⟩
  · rintro ⟨hT, hTmin⟩
    exact ⟨hT, Nat.le_antisymm (hTmin m hmem) (hmin T hT)⟩

/-! ## Minimum covers -/

theorem covers_toFinset_of_mem_multiplyOut (first : DNF) (rest : List DNF) (T : ProductTerm)
    (hT : T ∈ multiplyOut first rest) : Covers T.toFinset (first :: rest) := by
  intro clause hclause
  obtain ⟨t, ht, hsub⟩ := contains_choice_of_mem_multiplyOut first rest T hT clause hclause
  exact ⟨t, ht, fun x hx => List.mem_toFinset.2 (hsub x hx)⟩

theorem length_le_card_of_subset (U : ProductTerm) (hU : IsTerm U) (S : Finset Nat)
    (h : ∀ x ∈ U, x ∈ S) : U.length ≤ S.card := by
  rw [← List.toFinset_card_of_nodup (isTerm_nodup U hU)]
  apply Finset.card_le_card
  intro x hx
  exact h x (List.mem_toFinset.1 hx)

/-- Under the precondition, for a well-formed CNF, the call returns and the
returned terms are exactly the satisfying literal sets of least cardinality. -/
theorem operator_cons_minCover (first : DNF) (rest : List DNF)
    (h : ∀ c ∈ first :: rest, c ≠ []) (hv : ValidCNF (first :: rest)) :
    ∃ v, PetricksMethod.operator (first :: rest) = some v ∧
      ∀ T : ProductTerm, T ∈ v ↔
        IsTerm T ∧ Covers T.toFinset (first :: rest) ∧
          ∀ S : Finset Nat, Covers S (first :: rest) → T.length ≤ S.card := by
  obtain ⟨v, hv1, hv2⟩ := operator_cons_mem first rest h
  have hfirst : ∀ t ∈ first, IsTerm t := (hv first (List.mem_cons_self _ _)).2
  refine ⟨v, hv1, ?_⟩
  intro T
  rw [hv2]
  constructor
  · rintro ⟨hT, hmin⟩
    refine ⟨isTerm_of_mem_multiplyOut first rest hfirst T hT,
      covers_toFinset_of_mem_multiplyOut first rest T hT, ?_⟩
    intro S hS
    obtain ⟨U, hU, hsub⟩ := exists_mem_multiplyOut_subset first rest S hS
    exact Nat.le_trans (hmin U hU)
      (length_le_card_of_subset U (isTerm_of_mem_multiplyOut first rest hfirst U hU) S hsub)
  · rintro ⟨hT, hcov, hmin⟩
    obtain ⟨U, hU, hsub⟩ := exists_mem_multiplyOut_subset first rest T.toFinset hcov
    have hUterm := isTerm_of_mem_multiplyOut first rest hfirst U hU
    have hUcov := covers_toFinset_of_mem_multiplyOut first rest U hU
    have hle : T.toFinset.card ≤ U.toFinset.card := by
      rw [List.toFinset_card_of_nodup (isTerm_nodup T hT)]
      exact hmin _ hUcov
    have hss : U.toFinset ⊆ T.toFinset := by
      intro x hx
      exact hsub x (List.mem_toFinset.1 hx)
    have heq : U.toFinset = T.toFinset := Finset.eq_of_subset_of_card_le hss hle
    have hUT : U = T := by
      apply isTerm_ext U T hUterm hT
      intro x
      rw [← List.mem_toFinset, heq, List.mem_toFinset]
    subst hUT
    refine ⟨hU, ?_⟩
    intro W hW
    exact Nat.le_trans (hmin _ (covers_toFinset_of_mem_multiplyOut first rest W hW))
      (List.toFinset_card_le W)

theorem covers_perm (S : Finset Nat) (cnf cnf2 : CNF) (hp : cnf.Perm cnf2) :
    Covers S cnf ↔ Covers S cnf2 := by
  unfold Covers
  constructor
  · intro h clause hc
    exact h clause (hp.mem_iff.2 hc)
  · intro h clause hc
    exact h clause (hp.mem_iff.1 hc)

theorem covers_append_duplicate (S : Finset Nat) (cnf : CNF) (C : DNF) (hC : C ∈ cnf) :
    Covers S (cnf ++ [C]) ↔ Covers S cnf := by
  unfold Covers
  constructor
  · intro h clause hc
    exact h clause (List.mem_append_left _ hc)
  · intro h clause hc
    rcases List.mem_append.1 hc with hc | hc
    · exact h clause hc
    · rw [List.mem_singleton.1 hc]
      exact h C hC

/-! ## Sizes -/

theorem length_setInsert_ge {α : Type} (less : α → α → Bool) (x : α) (l : List α) :
    l.length ≤ (setInsert less x l).length := by
  induction l with
  | nil => simp [setInsert]
  | cons y ys ih =>
    cases h1 : less x y with
    | true => simp [setInsert, h1]
    | false =>
      cases h2 : less y x with
      | true => simpa [setInsert, h1, h2] using ih
      | false => simp [setInsert, h1, h2]

theorem length_setInsert_le {α : Type} (less : α → α → Bool) (x : α) (l : List α) :
    (setInsert less x l).length ≤ l.length + 1 := by
  induction l with
  | nil => simp [setInsert]
  | cons y ys ih =>
    cases h1 : less x y with
    | true => simp [setInsert, h1]
    | false =>
      cases h2 : less y x with
      | true => simpa [setInsert, h1, h2] using ih
      | false => simp [setInsert, h1, h2]

theorem length_setInsert_of_not_mem {α : Type} {less : α → α → Bool}
    (htri : ∀ a b, less a b = false → less b a = false → a = b)
    (x : α) (l : List α) (hx : x ∉ l) : (setInsert less x l).length = l.length + 1 := by
  induction l with
  | nil => simp [setInsert]
  | cons y ys ih =>
    have hxy : x ≠ y := fun h => hx (h ▸ List.mem_cons_self _ _)
    have hxys : x ∉ ys := fun h => hx (List.mem_cons_of_mem _ h)
    cases h1 : less x y with
    | true => simp [setInsert, h1]
    | false =>
      cases h2 : less y x with
      | true => simpa [setInsert, h1, h2] using ih hxys
      | false => exact absurd (htri x y h1 h2) hxy

theorem setInsert_idem {α : Type} {less : α → α → Bool}
    (hirr : ∀ a, less a a = false) (x : α) (l : List α) :
    setInsert less x (setInsert less x l) = setInsert less x l := by
  induction l with
  | nil => simp [setInsert, hirr]
  | cons y ys ih =>
    cases h1 : less x y with
    | true => simp [setInsert, h1, hirr]
    | false =>
      cases h2 : less y x with
      | true => simp [setInsert, h1, h2, ih]
      | false => simp [setInsert, h1, h2]

theorem setInsert_of_mem {α : Type} {less : α → α → Bool}
    (hirr : ∀ a, less a a = false)
    (htrans : ∀ a b c, less a b = true → less b c = true → less a c = true)
    (x : α) (l : List α) (h : l.Pairwise (fun a b => less a b = true)) (hx : x ∈ l) :
    setInsert less x l = l := by
  induction l with
  | nil => simp at hx
  | cons y ys ih =>
    have hy := List.pairwise_cons.1 h
    rcases List.mem_cons.1 hx with hxy | hxys
    · subst hxy
      simp [setInsert, hirr]
    · have h2 : less y x = true := hy.1 x hxys
      have h1 : less x y = false := by
        cases h : less x y with
        | false => rfl
        | true =>
          have := htrans x y x h h2
          rw [hirr x] at this
          exact absurd this (by simp)
      simp [setInsert, h1, h2, ih hy.2 hxys]

theorem literalLess_irrefl (a : Nat) : literalLess a a = false := by
  simp [literalLess]

theorem length_le_unionTerm (L R : ProductTerm) : L.length ≤ (unionTerm L R).length := by
  unfold unionTerm
  induction R generalizing L with
  | nil => simp
  | cons y ys ih =>
    simp only [List.foldl_cons]
    exact Nat.le_trans (length_setInsert_ge literalLess y L) (ih _)

theorem length_foldl_insertTerm (L : ProductTerm) (clause acc : DNF) :
    (clause.foldl (fun acc2 R => setInsert termLess (unionTerm L R) acc2) acc).length
      ≤ acc.length + clause.length := by
  induction clause generalizing acc with
  | nil => simp
  | cons R Rs ih =>
    simp only [List.foldl_cons, List.length_cons]
    have h1 := ih (setInsert termLess (unionTerm L R) acc)
    have h2 := length_setInsert_le termLess (unionTerm L R) acc
    omega

theorem length_foldl_multiply (resultingDNF clause acc : DNF) :
    (resultingDNF.foldl
        (fun acc L => clause.foldl
          (fun acc2 R => setInsert termLess (unionTerm L R) acc2) acc) acc).length
      ≤ acc.length + resultingDNF.length * clause.length := by
  induction resultingDNF generalizing acc with
  | nil => simp
  | cons L Ls ih =>
    simp only [List.foldl_cons, List.length_cons]
    have h1 := ih (clause.foldl (fun acc2 R => setInsert termLess (unionTerm L R) acc2) acc)
    have h2 := length_foldl_insertTerm L clause acc
    refine Nat.le_trans h1 (Nat.le_trans (Nat.add_le_add_right h2 _) ?_)
    rw [Nat.succ_mul, Nat.add_assoc, Nat.add_comm clause.length]

theorem length_multiply_le (resultingDNF clause : DNF) :
    (multiply resultingDNF clause).length ≤ resultingDNF.length * clause.length := by
  have h := length_foldl_multiply resultingDNF clause []
  simpa [multiply] using h

theorem length_multiplyOut_le (first : DNF) (rest : List DNF) :
    (multiplyOut first rest).length ≤ first.length * (rest.map List.length).prod := by
  induction rest generalizing first with
  | nil => simp [multiplyOut]
  | cons c cs ih =>
    rw [multiplyOut_cons]
    refine Nat.le_trans (ih (multiply first c)) ?_
    simp only [List.map_cons, List.prod_cons]
    rw [← Nat.mul_assoc]
    exact Nat.mul_le_mul_right _ (length_multiply_le first c)

/-! ## Order of the result -/

theorem ne_of_termLess (s t : ProductTerm) (h : termLess s t = true) : s ≠ t := by
  intro hst
  rw [hst, termLess_irrefl] at h
  exact absurd h (by simp)

theorem nodup_of_pairwise_termLess (d : DNF)
    (h : d.Pairwise (fun s t => termLess s t = true)) : d.Nodup :=
  List.Pairwise.imp (fun {s t} hst => ne_of_termLess s t hst) h

theorem eq_of_pairwise_termLess (d e : DNF)
    (hd : d.Pairwise (fun s t => termLess s t = true))
    (he : e.Pairwise (fun s t => termLess s t = true))
    (h : ∀ T, T ∈ d ↔ T ∈ e) : d = e := by
  have hp : d.Perm e :=
    (List.perm_ext_iff_of_nodup (nodup_of_pairwise_termLess d hd)
      (nodup_of_pairwise_termLess e he)).2 h
  haveI : IsAntisymm ProductTerm (fun s t => termLess s t = true) :=
    ⟨fun s t hst hts => by
      have := termLess_trans s t s hst hts
      rw [termLess_irrefl] at this
      exact absurd this (by simp)⟩
  exact List.eq_of_perm_of_sorted hp hd he

theorem length_filter_eq_of_nodup (x : ProductTerm) (l : DNF) (hnd : l.Nodup)
    (hx : x ∈ l) : (l.filter (fun T => decide (T = x))).length = 1 := by
  induction l with
  | nil => simp at hx
  | cons y ys ih =>
    have hy := List.nodup_cons.1 hnd
    by_cases hyx : y = x
    · subst hyx
      have hnil : ys.filter (fun T => decide (T = y)) = [] := by
        apply List.eq_nil_iff_forall_not_mem.2
        intro a ha
        rw [List.mem_filter] at ha
        have hay : a = y := by simpa using ha.2
        exact hy.1 (hay ▸ ha.1)
      simp [List.filter_cons, hnil]
    · have hxys : x ∈ ys := by
        rcases List.mem_cons.1 hx with h | h
        · exact absurd h.symm hyx
        · exact h
      simp [List.filter_cons, hyx, ih hy.2 hxys]

theorem filter_shortest_eq (d : DNF) (m : ProductTerm) (hmem : m ∈ d)
    (hmin : ∀ U ∈ d, m.length ≤ U.length) :
    d.filter (fun pt => pt.length == m.length) =
      d.filter (fun T => decide (∀ U ∈ d, T.length ≤ U.length)) := by
  apply List.filter_congr
  intro T hT
  by_cases h : T.length = m.length
  · simpa [h] using hmin
  · have h2 : ¬ ∀ U ∈ d, T.length ≤ U.length := by
      intro hall
      exact h (Nat.le_antisymm (hall m hmem) (hmin T hT))
    simp [h, h2]

/-- Under the precondition the call returns a non-empty vector, which is the
multiplied-out DNF filtered, in its order, to the terms of least size. -/
theorem operator_cons_filter (first : DNF) (rest : List DNF)
    (h : ∀ c ∈ first :: rest, c ≠ []) :
    ∃ v, PetricksMethod.operator (first :: rest) = some v ∧ v ≠ [] ∧
      v = (multiplyOut first rest).filter
        (fun T => decide (∀ U ∈ multiplyOut first rest, T.length ≤ U.length)) := by
  obtain ⟨m, ⟨hmem, hmin⟩, heq⟩ := operator_cons_eq first rest (multiplyOut_ne_nil first rest h)
  rw [filter_shortest_eq (multiplyOut first rest) m hmem hmin] at heq
  refine ⟨_, heq, ?_, rfl⟩
  intro hnil
  have hm : m ∈ (multiplyOut first rest).filter
      (fun T => decide (∀ U ∈ multiplyOut first rest, T.length ≤ U.length)) := by
    rw [List.mem_filter]
    exact ⟨hmem, by simpa using hmin⟩
  rw [hnil] at hm
  simp at hm

theorem termLess_iff_lex (s t : ProductTerm) :
    termLess s t = true ↔ List.Lex (fun a b : Nat => a < b) s t := by
  induction s generalizing t with
  | nil =>
    cases t with
    | nil => simp [termLess]
    | cons b bs => simp [termLess, List.Lex.nil]
  | cons a as ih =>
    cases t with
    | nil => simp [termLess]
    | cons b bs =>
      by_cases hab : a < b
      · simp [termLess, hab, List.Lex.rel hab]
      · by_cases hba : b < a
        · have hne : a ≠ b := by omega
          simp only [termLess, hab, hba, if_true, if_false, Bool.false_eq_true, false_iff]
          intro hlex
          cases hlex with
          | cons h => exact hne rfl
          | rel h => exact hab h
        · have hEq : a = b := by omega
          subst hEq
          simp only [termLess, hab, if_false]
          rw [ih bs]
          constructor
          · intro h
            exact List.Lex.cons h
          · intro hlex
            cases hlex with
            | cons h => exact h
            | rel h => exact absurd h hab

end Petrick

namespace PetricksMethod

open Petrick

/-! ## The claims -/

/-- C1, soundness: for a CNF with at least one clause and no empty clause the
call returns, and every returned product term `T` satisfies every clause: each
clause has a product term whose literals are all contained in `T`. -/
theorem operator_sound (cnf : CNF) (hne : cnf ≠ []) (hcl : ∀ c ∈ cnf, c ≠ []) :
    ∃ v, operator cnf = some v ∧
      ∀ T ∈ v, ∀ clause ∈ cnf, ∃ t ∈ clause, ∀ x ∈ t, x ∈ T := by
  cases cnf with
  | nil => exact absurd rfl hne
  | cons first rest =>
    obtain ⟨v, hv1, hv2⟩ := operator_cons_mem first rest hcl
    refine ⟨v, hv1, ?_⟩
    intro T hT
    exact contains_choice_of_mem_multiplyOut first rest T ((hv2 T).1 hT).1

theorem operator_sound_witness :
    ([[[1], [2]], [[1], [3]]] : CNF) ≠ [] ∧
      (∀ c ∈ ([[[1], [2]], [[1], [3]]] : CNF), c ≠ []) ∧
      ∃ v, operator [[[1], [2]], [[1], [3]]] = some v ∧
        ∀ T ∈ v, ∀ clause ∈ ([[[1], [2]], [[1], [3]]] : CNF),
          ∃ t ∈ clause, ∀ x ∈ t, x ∈ T :=
  ⟨by decide, by decide, operator_sound [[[1], [2]], [[1], [3]]] (by decide) (by decide)⟩

/-- C2, minimality: for a well-formed CNF with at least one clause and no empty
clause the call returns, every returned term is itself a satisfying literal set
whose cardinality is its size, and no literal set that satisfies every clause
has fewer literals than a returned term. -/
theorem operator_minimal (cnf : CNF) (hne : cnf ≠ []) (hcl : ∀ c ∈ cnf, c ≠ [])
    (hv : ValidCNF cnf) :
    ∃ v, operator cnf = some v ∧
      ∀ T ∈ v, (T.toFinset.card = T.length ∧ Covers T.toFinset cnf) ∧
        ∀ S : Finset Nat, Covers S cnf → T.length ≤ S.card := by
  cases cnf with
  | nil => exact absurd rfl hne
  | cons first rest =>
    obtain ⟨v, hv1, hv2⟩ := operator_cons_minCover first rest hcl hv
    refine ⟨v, hv1, ?_⟩
    intro T hT
    obtain ⟨hterm, hcov, hmin⟩ := (hv2 T).1 hT
    exact ⟨⟨List.toFinset_card_of_nodup (isTerm_nodup T hterm), hcov⟩, hmin⟩

theorem operator_minimal_witness :
    ([[[1], [2]], [[1], [3]]] : CNF) ≠ [] ∧
      (∀ c ∈ ([[[1], [2]], [[1], [3]]] : CNF), c ≠ []) ∧
      ValidCNF [[[1], [2]], [[1], [3]]] ∧
      ∃ v, operator [[[1], [2]], [[1], [3]]] = some v ∧
        ∀ T ∈ v,
          (T.toFinset.card = T.length ∧ Covers T.toFinset [[[1], [2]], [[1], [3]]]) ∧
          ∀ S : Finset Nat, Covers S [[[1], [2]], [[1], [3]]] → T.length ≤ S.card :=
  ⟨by decide, by decide, by decide,
    operator_minimal [[[1], [2]], [[1], [3]]] (by decide) (by decide) (by decide)⟩

/-- C3, completeness: for a well-formed CNF with at least one clause and no
empty clause the call returns, and a product term is in the returned vector
exactly when it is a literal set that satisfies every clause and no satisfying
literal set has fewer literals; so every minimum-cardinality satisfying set is
returned and nothing else is. -/
theorem operator_complete (cnf : CNF) (hne : cnf ≠ []) (hcl : ∀ c ∈ cnf, c ≠ [])
    (hv : ValidCNF cnf) :
    ∃ v, operator cnf = some v ∧
      ∀ S : ProductTerm, S ∈ v ↔
        IsTerm S ∧ Covers S.toFinset cnf ∧
          ∀ S2 : Finset Nat, Covers S2 cnf → S.length ≤ S2.card := by
  cases cnf with
  | nil => exact absurd rfl hne
  | cons first rest => exact operator_cons_minCover first rest hcl hv

theorem operator_complete_witness :
    ([[[1], [2]], [[3], [4]], [[1], [3]]] : CNF) ≠ [] ∧
      (∀ c ∈ ([[[1], [2]], [[3], [4]], [[1], [3]]] : CNF), c ≠ []) ∧
      ValidCNF [[[1], [2]], [[3], [4]], [[1], [3]]] ∧
      ∃ v, operator [[[1], [2]], [[3], [4]], [[1], [3]]] = some v ∧
        ∀ S : ProductTerm, S ∈ v ↔
          IsTerm S ∧ Covers S.toFinset [[[1], [2]], [[3], [4]], [[1], [3]]] ∧
            ∀ S2 : Finset Nat,
              Covers S2 [[[1], [2]], [[3], [4]], [[1], [3]]] → S.length ≤ S2.card :=
  ⟨by decide, by decide, by decide,
    operator_complete [[[1], [2]], [[3], [4]], [[1], [3]]] (by decide) (by decide)
      (by decide)⟩

/-- C4, worked example: on (1+2)(3+4)(1+3)(5+6)(2+5)(4+6) the call returns
exactly the vector of the two terms {1,4,5} and {2,3,6}, both of cardinality 3,
and the multiplied-out DNF has no term of cardinality below 3. -/
theorem operator_cyclic_core :
    operator [[[1], [2]], [[3], [4]], [[1], [3]], [[5], [6]], [[2], [5]], [[4], [6]]]
        = some [[1, 4, 5], [2, 3, 6]] ∧
      ([1, 4, 5] : ProductTerm).length = 3 ∧ ([2, 3, 6] : ProductTerm).length = 3 ∧
      ∀ T ∈ multiplyOut [[1], [2]] [[[3], [4]], [[1], [3]], [[5], [6]], [[2], [5]], [[4], [6]]],
        3 ≤ T.length := by
  decide

/-- C5, distributivity: for a well-formed non-empty CNF the accumulator after
the multiplication loop is a set of product terms whose elements are exactly
the unions of one product term chosen from each clause; for (1+2)(3+4) it is
{1,3}, {1,4}, {2,3}, {2,4}; and it is empty when some clause is empty. -/
theorem multiplyOut_distributive (first : DNF) (rest : List DNF)
    (hv : ValidCNF (first :: rest)) :
    (IsDNF (multiplyOut first rest) ∧
      ∀ T : ProductTerm, T ∈ multiplyOut first rest ↔
        IsTerm T ∧ ∃ choices : List ProductTerm,
          List.Forall₂ (fun t c => t ∈ c) choices (first :: rest) ∧
            ∀ x, x ∈ T ↔ ∃ t ∈ choices, x ∈ t) ∧
      multiplyOut [[1], [2]] [[[3], [4]]] = [[1, 3], [1, 4], [2, 3], [2, 4]] ∧
      ([] ∈ first :: rest → multiplyOut first rest = []) := by
  have hfirst := hv first (List.mem_cons_self _ _)
  refine ⟨⟨⟨pairwise_multiplyOut first rest hfirst.1,
    isTerm_of_mem_multiplyOut first rest hfirst.2⟩, ?_⟩, by decide,
    multiplyOut_eq_nil_of_mem first rest⟩
  intro T
  constructor
  · intro hT
    refine ⟨isTerm_of_mem_multiplyOut first rest hfirst.2 T hT, ?_⟩
    obtain ⟨L, hL, choices, hch, rfl⟩ := (mem_multiplyOut first rest T).1 hT
    refine ⟨L :: choices, List.Forall₂.cons hL hch, ?_⟩
    intro x
    simp only [mem_unionAll, List.mem_cons, exists_eq_or_imp]
  · rintro ⟨hT, choices, hch, hx⟩
    cases hch with
    | cons hL hrest =>
      rename_i L choices2
      have hEq : T = unionAll L choices2 := by
        apply isTerm_ext T _ hT (isTerm_unionAll L choices2 (hfirst.2 L hL))
        intro x
        rw [hx x]
        simp only [mem_unionAll, List.mem_cons, exists_eq_or_imp]
      exact (mem_multiplyOut first rest T).2 ⟨L, hL, choices2, hrest, hEq⟩

theorem multiplyOut_distributive_witness :
    ValidCNF ([[1], [2]] :: [[[1], [3]]]) ∧
      (IsDNF (multiplyOut [[1], [2]] [[[1], [3]]]) ∧
        ∀ T : ProductTerm, T ∈ multiplyOut [[1], [2]] [[[1], [3]]] ↔
          IsTerm T ∧ ∃ choices : List ProductTerm,
            List.Forall₂ (fun t c => t ∈ c) choices ([[1], [2]] :: [[[1], [3]]]) ∧
              ∀ x, x ∈ T ↔ ∃ t ∈ choices, x ∈ t) ∧
      multiplyOut [[1], [2]] [[[3], [4]]] = [[1, 3], [1, 4], [2, 3], [2, 4]] ∧
      ([] ∈ ([[1], [2]] :: [[[1], [3]]] : CNF) → multiplyOut [[1], [2]] [[[1], [3]]] = []) :=
  ⟨by decide, multiplyOut_distributive [[1], [2]] [[[1], [3]]] (by decide)⟩

/-- C6, single-clause identity: for a CNF made of one non-empty clause `C` the
call returns, in the order of `C` and unchanged, exactly the product terms of
`C` that no term of `C` is shorter than, and no other term. -/
theorem operator_single_clause (C : DNF) (hC : C ≠ []) :
    operator [C] = some (C.filter (fun T => decide (∀ U ∈ C, T.length ≤ U.length))) := by
  obtain ⟨m, ⟨hmem, hmin⟩, heq⟩ := operator_cons_eq C [] (by simpa [multiplyOut] using hC)
  have hC2 : multiplyOut C [] = C := rfl
  rw [hC2] at hmem hmin heq
  rw [heq]
  congr 1
  apply List.filter_congr
  intro T hT
  by_cases h : T.length = m.length
  · simpa [h] using hmin
  · have h2 : ¬ ∀ U ∈ C, T.length ≤ U.length := by
      intro hall
      exact h (Nat.le_antisymm (hall m hmem) (hmin T hT))
    simp [h, h2]

theorem operator_single_clause_witness :
    ([[1, 2], [3], [4]] : DNF) ≠ [] ∧
      operator [[[1, 2], [3], [4]]] =
        some (([[1, 2], [3], [4]] : DNF).filter
          (fun T => decide (∀ U ∈ ([[1, 2], [3], [4]] : DNF), T.length ≤ U.length))) :=
  ⟨by decide, operator_single_clause [[1, 2], [3], [4]] (by decide)⟩

/-- C7, order independence: for a well-formed CNF with at least one clause and
no empty clause, and any permutation of its clauses, both calls return and
they return the same set of product terms. -/
theorem operator_perm (cnf cnf2 : CNF) (hp : cnf.Perm cnf2) (hne : cnf ≠ [])
    (hcl : ∀ c ∈ cnf, c ≠ []) (hv : ValidCNF cnf) :
    ∃ v v2, operator cnf = some v ∧ operator cnf2 = some v2 ∧ ∀ T, T ∈ v ↔ T ∈ v2 := by
  have hne2 : cnf2 ≠ [] := fun h => hne (List.Perm.eq_nil (h ▸ hp))
  have hcl2 : ∀ c ∈ cnf2, c ≠ [] := fun c hc => hcl c (hp.mem_iff.2 hc)
  have hv2 : ValidCNF cnf2 := fun d hd => hv d (hp.mem_iff.2 hd)
  cases cnf with
  | nil => exact absurd rfl hne
  | cons first rest =>
    cases cnf2 with
    | nil => exact absurd rfl hne2
    | cons first2 rest2 =>
      obtain ⟨v, hv1, hmem⟩ := operator_cons_minCover first rest hcl hv
      obtain ⟨w, hw1, hmem2⟩ := operator_cons_minCover first2 rest2 hcl2 hv2
      refine ⟨v, w, hv1, hw1, ?_⟩
      intro T
      rw [hmem T, hmem2 T]
      simp only [covers_perm _ _ _ hp]

theorem operator_perm_witness :
    ([[[1], [2]], [[1], [3]]] : CNF).Perm [[[1], [3]], [[1], [2]]] ∧
      ([[[1], [2]], [[1], [3]]] : CNF) ≠ [] ∧
      (∀ c ∈ ([[[1], [2]], [[1], [3]]] : CNF), c ≠ []) ∧
      ValidCNF [[[1], [2]], [[1], [3]]] ∧
      ∃ v v2, operator [[[1], [2]], [[1], [3]]] = some v ∧
        operator [[[1], [3]], [[1], [2]]] = some v2 ∧ ∀ T, T ∈ v ↔ T ∈ v2 :=
  ⟨List.Perm.swap _ _ _, by decide, by decide, by decide,
    operator_perm [[[1], [2]], [[1], [3]]] [[[1], [3]], [[1], [2]]] (List.Perm.swap _ _ _)
      (by decide) (by decide) (by decide)⟩

/-- C8, duplicate clause: for a well-formed CNF with at least one clause and no
empty clause, appending a clause that already occurs in it leaves the set of
returned product terms unchanged; the multiplied-out DNF itself may still gain
a non-minimal term, as (1+2)(1+2) gains {1,2}. -/
theorem operator_append_duplicate (cnf : CNF) (C : DNF) (hne : cnf ≠ [])
    (hcl : ∀ c ∈ cnf, c ≠ []) (hv : ValidCNF cnf) (hC : C ∈ cnf) :
    (∃ v v2, operator cnf = some v ∧ operator (cnf ++ [C]) = some v2 ∧
        ∀ T, T ∈ v ↔ T ∈ v2) ∧
      multiplyOut [[1], [2]] [] = [[1], [2]] ∧
      multiplyOut [[1], [2]] ([] ++ [[[1], [2]]]) = [[1], [1, 2], [2]] := by
  refine ⟨?_, by decide, by decide⟩
  have hcl2 : ∀ c ∈ cnf ++ [C], c ≠ [] := by
    intro c hc
    rcases List.mem_append.1 hc with hc | hc
    · exact hcl c hc
    · rw [List.mem_singleton.1 hc]; exact hcl C hC
  have hv2 : ValidCNF (cnf ++ [C]) := by
    intro d hd
    rcases List.mem_append.1 hd with hd | hd
    · exact hv d hd
    · rw [List.mem_singleton.1 hd]; exact hv C hC
  cases cnf with
  | nil => exact absurd rfl hne
  | cons first rest =>
    obtain ⟨v, hv1, hmem⟩ := operator_cons_minCover first rest hcl hv
    obtain ⟨w, hw1, hmem2⟩ := operator_cons_minCover first (rest ++ [C]) hcl2 hv2
    refine ⟨v, w, hv1, hw1, ?_⟩
    intro T
    rw [hmem T, hmem2 T]
    have hcov : ∀ S : Finset Nat,
        Covers S (first :: (rest ++ [C])) ↔ Covers S (first :: rest) :=
      fun S => covers_append_duplicate S (first :: rest) C hC
    simp only [hcov]

theorem operator_append_duplicate_witness :
    ([[[1], [2]], [[1], [3]]] : CNF) ≠ [] ∧
      (∀ c ∈ ([[[1], [2]], [[1], [3]]] : CNF), c ≠ []) ∧
      ValidCNF [[[1], [2]], [[1], [3]]] ∧
      ([[1], [2]] : DNF) ∈ ([[[1], [2]], [[1], [3]]] : CNF) ∧
      ((∃ v v2, operator [[[1], [2]], [[1], [3]]] = some v ∧
          operator ([[[1], [2]], [[1], [3]]] ++ [[[1], [2]]]) = some v2 ∧
          ∀ T, T ∈ v ↔ T ∈ v2) ∧
        multiplyOut [[1], [2]] [] = [[1], [2]] ∧
        multiplyOut [[1], [2]] ([] ++ [[[1], [2]]]) = [[1], [1, 2], [2]]) :=
  ⟨by decide, by decide, by decide, by decide,
    operator_append_duplicate [[[1], [2]], [[1], [3]]] [[1], [2]] (by decide) (by decide)
      (by decide) (by decide)⟩

/-- C9, degenerate case: for the CNF whose single clause holds only the empty
product term the call returns a vector of length 1 whose element is the empty
product term, of cardinality 0. -/
theorem operator_empty_term :
    operator [[[]]] = some [[]] ∧
      ([[]] : ProductTermVector).length = 1 ∧ ([] : ProductTerm).length = 0 := by
  decide

/-- C10 as stated fails: for the CNF made of one empty clause the call does not
return the empty vector; the end iterator of the empty accumulator is
dereferenced and the call has no defined result. -/
theorem operator_empty_clause_not_returned :
    ([[]] : CNF) ≠ [] ∧ ([] : DNF) ∈ ([[]] : CNF) ∧
      operator [[]] = none ∧ operator [[]] ≠ some [] := by
  decide

/-- C10, amended: for a non-empty CNF in which some clause has no product term
the multiplication loop leaves the accumulator empty; `std::min_element` then
yields the end iterator, whose dereference is undefined, so the call has no
defined result; the copy step alone would copy nothing from the empty
accumulator whatever `minLength` held. -/
theorem operator_empty_clause (first : DNF) (rest : List DNF) (h : [] ∈ first :: rest) :
    multiplyOut first rest = [] ∧
      min_element sizeLess (multiplyOut first rest) = none ∧
      operator (first :: rest) = none ∧
      ∀ minLength : Nat,
        (multiplyOut first rest).filter (fun pt => pt.length == minLength) = [] := by
  have hnil := multiplyOut_eq_nil_of_mem first rest h
  refine ⟨hnil, by rw [hnil]; rfl, operator_cons_none first rest hnil, ?_⟩
  intro minLength
  rw [hnil]
  rfl

theorem operator_empty_clause_witness :
    ([] : DNF) ∈ ([[1], [2]] :: [[], [[3]]] : CNF) ∧
      (multiplyOut [[1], [2]] [[], [[3]]] = [] ∧
        min_element sizeLess (multiplyOut [[1], [2]] [[], [[3]]]) = none ∧
        operator ([[1], [2]] :: [[], [[3]]]) = none ∧
        ∀ minLength : Nat,
          (multiplyOut [[1], [2]] [[], [[3]]]).filter (fun pt => pt.length == minLength)
            = []) :=
  ⟨by decide, operator_empty_clause [[1], [2]] [[], [[3]]] (by decide)⟩

/-- C11, well-definedness: for a CNF with at least one clause and no empty
clause, `cnf[0]` exists, the accumulator is non-empty after every iteration of
the multiplication loop, `std::min_element` yields an element rather than the
end iterator, and the call returns a vector with at least one term. -/
theorem operator_well_defined (cnf : CNF) (hne : cnf ≠ []) (hcl : ∀ c ∈ cnf, c ≠ []) :
    ∃ first rest, cnf = first :: rest ∧
      (∀ k, multiplyOut first (rest.take k) ≠ []) ∧
      (∃ smallest, min_element sizeLess (multiplyOut first rest) = some smallest ∧
        smallest ∈ multiplyOut first rest) ∧
      ∃ v, operator cnf = some v ∧ v ≠ [] := by
  cases cnf with
  | nil => exact absurd rfl hne
  | cons first rest =>
    refine ⟨first, rest, rfl, ?_, ?_, ?_⟩
    · intro k
      apply multiplyOut_ne_nil
      intro c hc
      rcases List.mem_cons.1 hc with hc | hc
      · exact hcl c (hc ▸ List.mem_cons_self _ _)
      · exact hcl c (List.mem_cons_of_mem _ (List.mem_of_mem_take hc))
    · obtain ⟨m, hm, hmem, _⟩ :=
        min_element_sizeLess (multiplyOut first rest) (multiplyOut_ne_nil first rest hcl)
      exact ⟨m, hm, hmem⟩
    · obtain ⟨v, hv1, hv2, _⟩ := operator_cons_filter first rest hcl
      exact ⟨v, hv1, hv2⟩

theorem operator_well_defined_witness :
    ([[[1], [2]], [[3], [4]], [[1], [3]]] : CNF) ≠ [] ∧
      (∀ c ∈ ([[[1], [2]], [[3], [4]], [[1], [3]]] : CNF), c ≠ []) ∧
      ∃ first rest, ([[[1], [2]], [[3], [4]], [[1], [3]]] : CNF) = first :: rest ∧
        (∀ k, multiplyOut first (rest.take k) ≠ []) ∧
        (∃ smallest, min_element sizeLess (multiplyOut first rest) = some smallest ∧
          smallest ∈ multiplyOut first rest) ∧
        ∃ v, operator [[[1], [2]], [[3], [4]], [[1], [3]]] = some v ∧ v ≠ [] :=
  ⟨by decide, by decide,
    operator_well_defined [[[1], [2]], [[3], [4]], [[1], [3]]] (by decide) (by decide)⟩

/-- C12, minimum filter: under the precondition the returned vector is the
multiplied-out DNF filtered, in the accumulator's iteration order, to the terms
whose size is the least size among its terms; all returned terms have the same
size and every term of the DNF with that size is returned. -/
theorem operator_minimum_filter (first : DNF) (rest : List DNF)
    (hcl : ∀ c ∈ first :: rest, c ≠ []) :
    ∃ v, operator (first :: rest) = some v ∧
      v = (multiplyOut first rest).filter
        (fun T => decide (∀ U ∈ multiplyOut first rest, T.length ≤ U.length)) ∧
      v.Sublist (multiplyOut first rest) ∧
      (∀ T ∈ v, ∀ U ∈ v, T.length = U.length) ∧
      (∀ T ∈ multiplyOut first rest, ∀ U ∈ v, T.length = U.length → T ∈ v) := by
  obtain ⟨v, hv1, _, hv3⟩ := operator_cons_filter first rest hcl
  have hmem : ∀ T, T ∈ v ↔
      T ∈ multiplyOut first rest ∧ ∀ U ∈ multiplyOut first rest, T.length ≤ U.length := by
    intro T
    rw [hv3, List.mem_filter]
    simp
  refine ⟨v, hv1, hv3, ?_, ?_, ?_⟩
  · rw [hv3]
    exact List.filter_sublist _
  · intro T hT U hU
    exact Nat.le_antisymm (((hmem T).1 hT).2 U ((hmem U).1 hU).1)
      (((hmem U).1 hU).2 T ((hmem T).1 hT).1)
  · intro T hT U hU hTU
    refine (hmem T).2 ⟨hT, ?_⟩
    intro W hW
    rw [hTU]
    exact ((hmem U).1 hU).2 W hW

theorem operator_minimum_filter_witness :
    (∀ c ∈ ([[1], [2]] :: [[[1], [3]]] : CNF), c ≠ []) ∧
      ∃ v, operator ([[1], [2]] :: [[[1], [3]]]) = some v ∧
        v = (multiplyOut [[1], [2]] [[[1], [3]]]).filter
          (fun T => decide (∀ U ∈ multiplyOut [[1], [2]] [[[1], [3]]], T.length ≤ U.length)) ∧
        v.Sublist (multiplyOut [[1], [2]] [[[1], [3]]]) ∧
        (∀ T ∈ v, ∀ U ∈ v, T.length = U.length) ∧
        (∀ T ∈ multiplyOut [[1], [2]] [[[1], [3]]], ∀ U ∈ v, T.length = U.length → T ∈ v) :=
  ⟨by decide, operator_minimum_filter [[1], [2]] [[[1], [3]]] (by decide)⟩

/-- C13, size bound: after any number of loop iterations the accumulator has at
most as many terms as the product of the sizes of the clauses processed so far;
the multiplied-out DNF, and any vector the call returns, has at most as many
terms as the product of the sizes of all clauses. -/
theorem multiplyOut_size_bound (first : DNF) (rest : List DNF) :
    (∀ k, (multiplyOut first (rest.take k)).length
        ≤ (((first :: rest).take (k + 1)).map List.length).prod) ∧
      (multiplyOut first rest).length ≤ (((first :: rest)).map List.length).prod ∧
      ∀ v, operator (first :: rest) = some v →
        v.length ≤ (((first :: rest)).map List.length).prod := by
  have hall : (multiplyOut first rest).length ≤ (((first :: rest)).map List.length).prod := by
    simpa using length_multiplyOut_le first rest
  refine ⟨?_, hall, ?_⟩
  · intro k
    simpa using length_multiplyOut_le first (rest.take k)
  · intro v hv
    by_cases hnil : multiplyOut first rest = []
    · rw [operator_cons_none first rest hnil] at hv
      exact absurd hv (by simp)
    · obtain ⟨m, _, heq⟩ := operator_cons_eq first rest hnil
      rw [heq] at hv
      have hv2 := Option.some.inj hv
      rw [← hv2]
      exact Nat.le_trans (List.length_filter_le _ _) hall

theorem multiplyOut_size_bound_witness :
    (∀ k, (multiplyOut [[1], [2]] (([[[1], [3]], [[2], [3], [4]]] : List DNF).take k)).length
        ≤ (((([[1], [2]] :: [[[1], [3]], [[2], [3], [4]]] : CNF)).take (k + 1)).map
            List.length).prod) ∧
      (multiplyOut [[1], [2]] [[[1], [3]], [[2], [3], [4]]]).length
        ≤ ((([[1], [2]] :: [[[1], [3]], [[2], [3], [4]]] : CNF)).map List.length).prod ∧
      ∀ v, operator ([[1], [2]] :: [[[1], [3]], [[2], [3], [4]]]) = some v →
        v.length ≤ ((([[1], [2]] :: [[[1], [3]], [[2], [3], [4]]] : CNF)).map List.length).prod :=
  multiplyOut_size_bound [[1], [2]] [[[1], [3]], [[2], [3], [4]]]

/-- C14, no subset-absorption: for (1+2)(1+3) the accumulator after the loop is
{1}, {1,2}, {1,3}, {2,3}; it keeps {1,2} and {1,3}, proper supersets of its
term {1}, while the returned vector is the single term {1}. -/
theorem multiplyOut_keeps_supersets :
    multiplyOut [[1], [2]] [[[1], [3]]] = [[1], [1, 2], [1, 3], [2, 3]] ∧
      operator [[[1], [2]], [[1], [3]]] = some [[1]] ∧
      (∃ (first : DNF) (rest : List DNF) (s t : ProductTerm),
        s ∈ multiplyOut first rest ∧ t ∈ multiplyOut first rest ∧
          (∀ x ∈ s, x ∈ t) ∧ ∃ y ∈ t, y ∉ s) ∧
      ([1] : ProductTerm) ∈ multiplyOut [[1], [2]] [[[1], [3]]] ∧
      ([1, 2] : ProductTerm) ∈ multiplyOut [[1], [2]] [[[1], [3]]] ∧
      ([1, 3] : ProductTerm) ∈ multiplyOut [[1], [2]] [[[1], [3]]] := by
  refine ⟨by decide, by decide, ?_, by decide, by decide, by decide⟩
  exact ⟨[[1], [2]], [[[1], [3]]], [1], [1, 2], by decide, by decide, by decide,
    2, by decide, by decide⟩

/-- C15, idempotence of literals: inserting a literal twice into a product term
gives the same term as inserting it once; for product terms `L` and `R` the
term built at the insertion step has |L| + |R| - |L ∩ R| literals, and it
equals `L` when `R` is contained in `L`; multiplying {1} by {1} yields {1}. -/
theorem unionTerm_idempotent (t L R : ProductTerm) (x : Nat) (hL : IsTerm L)
    (hR : IsTerm R) :
    setInsert literalLess x (setInsert literalLess x t) = setInsert literalLess x t ∧
      (unionTerm L R).length = L.length + R.length - (L.toFinset ∩ R.toFinset).card ∧
      ((∀ y ∈ R, y ∈ L) → unionTerm L R = L) ∧
      unionTerm [1] [1] = [1] := by
  refine ⟨setInsert_idem literalLess_irrefl x t, ?_, ?_, by decide⟩
  · have hU : IsTerm (unionTerm L R) := isTerm_unionTerm L R hL
    have hset : (unionTerm L R).toFinset = L.toFinset ∪ R.toFinset := by
      ext y
      simp only [List.mem_toFinset, Finset.mem_union, mem_unionTerm]
    have h1 : (unionTerm L R).toFinset.card = (unionTerm L R).length :=
      List.toFinset_card_of_nodup (isTerm_nodup _ hU)
    have h2 : L.toFinset.card = L.length := List.toFinset_card_of_nodup (isTerm_nodup _ hL)
    have h3 : R.toFinset.card = R.length := List.toFinset_card_of_nodup (isTerm_nodup _ hR)
    have h4 := Finset.card_union_add_card_inter L.toFinset R.toFinset
    rw [← hset, h1, h2, h3] at h4
    omega
  · intro hsub
    apply isTerm_ext _ _ (isTerm_unionTerm L R hL) hL
    intro y
    rw [mem_unionTerm]
    constructor
    · rintro (h | h)
      · exact h
      · exact hsub y h
    · intro h
      exact Or.inl h

theorem unionTerm_idempotent_witness :
    IsTerm [1, 2, 4] ∧ IsTerm [2, 3] ∧
      (setInsert literalLess 3 (setInsert literalLess 3 [1, 5]) = setInsert literalLess 3 [1, 5] ∧
        (unionTerm [1, 2, 4] [2, 3]).length =
          ([1, 2, 4] : ProductTerm).length + ([2, 3] : ProductTerm).length
            - (([1, 2, 4] : ProductTerm).toFinset ∩ ([2, 3] : ProductTerm).toFinset).card ∧
        ((∀ y ∈ ([2, 3] : ProductTerm), y ∈ ([1, 2, 4] : ProductTerm)) →
          unionTerm [1, 2, 4] [2, 3] = [1, 2, 4]) ∧
        unionTerm [1] [1] = [1]) :=
  ⟨by decide, by decide, unionTerm_idempotent [1, 5] [1, 2, 4] [2, 3] 3 (by decide) (by decide)⟩

/-- C16 as stated fails: inserting the term {1} twice into the DNF that already
holds {1} does not increase its size by one; the size stays 1. -/
theorem setInsert_twice_present :
    IsDNF [[1]] ∧
      (setInsert termLess [1] (setInsert termLess [1] [[1]])).length
        ≠ ([[1]] : DNF).length + 1 ∧
      (setInsert termLess [1] (setInsert termLess [1] [[1]])).length = ([[1]] : DNF).length := by
  decide

/-- C16, amended: in one multiplication step the next accumulator holds the
union of every pair exactly once, however many pairs produce it; inserting a
product term twice into a DNF gives the same DNF as inserting it once, which
has one more term when the term was not yet in the DNF and the same number of
terms when it was; multiplying {{1},{2}} by itself yields {1}, {1,2}, {2}. -/
theorem multiply_term_idempotent (resultingDNF clause D : DNF) (t : ProductTerm)
    (hD : IsDNF D) :
    (multiply resultingDNF clause).Nodup ∧
      (∀ L ∈ resultingDNF, ∀ R ∈ clause,
        ((multiply resultingDNF clause).filter
          (fun T => decide (T = unionTerm L R))).length = 1) ∧
      setInsert termLess t (setInsert termLess t D) = setInsert termLess t D ∧
      (t ∉ D → (setInsert termLess t (setInsert termLess t D)).length = D.length + 1) ∧
      (t ∈ D → (setInsert termLess t (setInsert termLess t D)).length = D.length) ∧
      multiply [[1], [2]] [[1], [2]] = [[1], [1, 2], [2]] := by
  have hnd : (multiply resultingDNF clause).Nodup :=
    nodup_of_pairwise_termLess _ (pairwise_multiply resultingDNF clause)
  have hidem := setInsert_idem termLess_irrefl t D
  refine ⟨hnd, ?_, hidem, ?_, ?_, by decide⟩
  · intro L hL R hR
    exact length_filter_eq_of_nodup _ _ hnd
      ((mem_multiply resultingDNF clause _).2 ⟨L, hL, R, hR, rfl⟩)
  · intro hnot
    rw [hidem]
    exact length_setInsert_of_not_mem termLess_tri t D hnot
  · intro hmem
    rw [hidem, setInsert_of_mem termLess_irrefl termLess_trans t D hD.1 hmem]

theorem multiply_term_idempotent_witness :
    IsDNF [[1], [2, 3]] ∧
      ((multiply [[1], [2]] [[1], [2]]).Nodup ∧
        (∀ L ∈ ([[1], [2]] : DNF), ∀ R ∈ ([[1], [2]] : DNF),
          ((multiply [[1], [2]] [[1], [2]]).filter
            (fun T => decide (T = unionTerm L R))).length = 1) ∧
        setInsert termLess [1, 2] (setInsert termLess [1, 2] [[1], [2, 3]])
          = setInsert termLess [1, 2] [[1], [2, 3]] ∧
        (([1, 2] : ProductTerm) ∉ ([[1], [2, 3]] : DNF) →
          (setInsert termLess [1, 2] (setInsert termLess [1, 2] [[1], [2, 3]])).length
            = ([[1], [2, 3]] : DNF).length + 1) ∧
        (([1, 2] : ProductTerm) ∈ ([[1], [2, 3]] : DNF) →
          (setInsert termLess [1, 2] (setInsert termLess [1, 2] [[1], [2, 3]])).length
            = ([[1], [2, 3]] : DNF).length) ∧
        multiply [[1], [2]] [[1], [2]] = [[1], [1, 2], [2]]) :=
  ⟨by decide, multiply_term_idempotent [[1], [2]] [[1], [2]] [[1], [2, 3]] [1, 2] (by decide)⟩

/-- C17, irredundant covers: for a well-formed CNF with at least one clause and
no empty clause the call returns, and for every returned term `T` and every
literal `x` of `T` some clause has no product term contained in `T` without
`x`. -/
theorem operator_irredundant (cnf : CNF) (hne : cnf ≠ []) (hcl : ∀ c ∈ cnf, c ≠ [])
    (hv : ValidCNF cnf) :
    ∃ v, operator cnf = some v ∧
      ∀ T ∈ v, ∀ x ∈ T, ∃ clause ∈ cnf, ∀ t ∈ clause, ¬ ∀ y ∈ t, y ∈ T ∧ y ≠ x := by
  cases cnf with
  | nil => exact absurd rfl hne
  | cons first rest =>
    obtain ⟨v, hv1, hv2⟩ := operator_cons_minCover first rest hcl hv
    refine ⟨v, hv1, ?_⟩
    intro T hT x hx
    obtain ⟨_, _, hmin⟩ := (hv2 T).1 hT
    by_contra hcon
    push_neg at hcon
    have hcov : Covers (T.toFinset.erase x) (first :: rest) := by
      intro clause hclause
      obtain ⟨t, ht, hsub⟩ := hcon clause hclause
      refine ⟨t, ht, ?_⟩
      intro y hy
      exact Finset.mem_erase.2 ⟨(hsub y hy).2, List.mem_toFinset.2 (hsub y hy).1⟩
    have h1 := hmin _ hcov
    have h2 : (T.toFinset.erase x).card < T.toFinset.card :=
      Finset.card_erase_lt_of_mem (List.mem_toFinset.2 hx)
    have h3 := List.toFinset_card_le T
    omega

theorem operator_irredundant_witness :
    ([[[1], [2]], [[3], [4]], [[1], [3]]] : CNF) ≠ [] ∧
      (∀ c ∈ ([[[1], [2]], [[3], [4]], [[1], [3]]] : CNF), c ≠ []) ∧
      ValidCNF [[[1], [2]], [[3], [4]], [[1], [3]]] ∧
      ∃ v, operator [[[1], [2]], [[3], [4]], [[1], [3]]] = some v ∧
        ∀ T ∈ v, ∀ x ∈ T, ∃ clause ∈ ([[[1], [2]], [[3], [4]], [[1], [3]]] : CNF),
          ∀ t ∈ clause, ¬ ∀ y ∈ t, y ∈ T ∧ y ≠ x :=
  ⟨by decide, by decide, by decide,
    operator_irredundant [[[1], [2]], [[3], [4]], [[1], [3]]] (by decide) (by decide)
      (by decide)⟩

/-- C18, deterministic output order: for a well-formed CNF with at least one
clause and no empty clause the returned vector has no term twice and is
strictly ascending in the order of the DNF container, the lexicographic order
of the ascending literal sequences; a permutation of the clauses returns the
equal vector; in the worked example {1,4,5} comes before {2,3,6}. -/
theorem operator_output_order (cnf cnf2 : CNF) (hp : cnf.Perm cnf2) (hne : cnf ≠ [])
    (hcl : ∀ c ∈ cnf, c ≠ []) (hv : ValidCNF cnf) :
    ∃ v, operator cnf = some v ∧ v.Nodup ∧
      v.Pairwise (fun s t => termLess s t = true) ∧
      v.Pairwise (List.Lex (fun a b : Nat => a < b)) ∧
      operator cnf2 = some v ∧
      operator [[[1], [2]], [[3], [4]], [[1], [3]], [[5], [6]], [[2], [5]], [[4], [6]]]
        = some [[1, 4, 5], [2, 3, 6]] ∧
      termLess [1, 4, 5] [2, 3, 6] = true := by
  have hne2 : cnf2 ≠ [] := fun h => hne (List.Perm.eq_nil (h ▸ hp))
  have hcl2 : ∀ c ∈ cnf2, c ≠ [] := fun c hc => hcl c (hp.mem_iff.2 hc)
  have hv2 : ValidCNF cnf2 := fun d hd => hv d (hp.mem_iff.2 hd)
  have sorted : ∀ (first : DNF) (rest : List DNF), (∀ c ∈ first :: rest, c ≠ []) →
      ValidCNF (first :: rest) → ∀ w, operator (first :: rest) = some w →
        w.Pairwise (fun s t => termLess s t = true) := by
    intro first rest h1 h2 w hw
    obtain ⟨w2, hw2, _, hw3⟩ := operator_cons_filter first rest h1
    rw [hw2] at hw
    rw [← Option.some.inj hw, hw3]
    exact List.Pairwise.filter _
      (pairwise_multiplyOut first rest (h2 first (List.mem_cons_self _ _)).1)
  cases cnf with
  | nil => exact absurd rfl hne
  | cons first rest =>
    cases cnf2 with
    | nil => exact absurd rfl hne2
    | cons first2 rest2 =>
      obtain ⟨v, hv1, hmem⟩ := operator_cons_minCover first rest hcl hv
      obtain ⟨w, hw1, hmem2⟩ := operator_cons_minCover first2 rest2 hcl2 hv2
      have hsv := sorted first rest hcl hv v hv1
      have hsw := sorted first2 rest2 hcl2 hv2 w hw1
      have hwv : w = v := by
        apply eq_of_pairwise_termLess w v hsw hsv
        intro T
        rw [hmem T, hmem2 T]
        simp only [covers_perm _ _ _ hp]
      refine ⟨v, hv1, nodup_of_pairwise_termLess v hsv, hsv, ?_, hwv ▸ hw1, by decide,
        by decide⟩
      exact List.Pairwise.imp (fun {s t} hst => (termLess_iff_lex s t).1 hst) hsv

theorem operator_output_order_witness :
    ([[[1], [2]], [[1], [3]]] : CNF).Perm [[[1], [3]], [[1], [2]]] ∧
      ([[[1], [2]], [[1], [3]]] : CNF) ≠ [] ∧
      (∀ c ∈ ([[[1], [2]], [[1], [3]]] : CNF), c ≠ []) ∧
      ValidCNF [[[1], [2]], [[1], [3]]] ∧
      ∃ v, operator [[[1], [2]], [[1], [3]]] = some v ∧ v.Nodup ∧
        v.Pairwise (fun s t => termLess s t = true) ∧
        v.Pairwise (List.Lex (fun a b : Nat => a < b)) ∧
        operator [[[1], [3]], [[1], [2]]] = some v ∧
        operator [[[1], [2]], [[3], [4]], [[1], [3]], [[5], [6]], [[2], [5]], [[4], [6]]]
          = some [[1, 4, 5], [2, 3, 6]] ∧
        termLess [1, 4, 5] [2, 3, 6] = true :=
  ⟨List.Perm.swap _ _ _, by decide, by decide, by decide,
    operator_output_order [[[1], [2]], [[1], [3]]] [[[1], [3]], [[1], [2]]]
      (List.Perm.swap _ _ _) (by decide) (by decide) (by decide)⟩

/-- C19, monotonicity: for a CNF with at least one clause and no empty clause
and a non-empty clause `C`, both calls return a non-empty vector and every
term returned for the CNF with `C` appended has at least as many literals as
every term returned for the original CNF. -/
theorem operator_append_monotone (cnf : CNF) (C : DNF) (hne : cnf ≠ [])
    (hcl : ∀ c ∈ cnf, c ≠ []) (hC : C ≠ []) :
    ∃ v v2, operator cnf = some v ∧ operator (cnf ++ [C]) = some v2 ∧
      v ≠ [] ∧ v2 ≠ [] ∧ ∀ T ∈ v, ∀ T2 ∈ v2, T.length ≤ T2.length := by
  have hcl2 : ∀ c ∈ cnf ++ [C], c ≠ [] := by
    intro c hc
    rcases List.mem_append.1 hc with hc | hc
    · exact hcl c hc
    · rw [List.mem_singleton.1 hc]; exact hC
  cases cnf with
  | nil => exact absurd rfl hne
  | cons first rest =>
    obtain ⟨v, hv1, hv2, hv3⟩ := operator_cons_filter first rest hcl
    obtain ⟨w, hw1, hw2, hw3⟩ := operator_cons_filter first (rest ++ [C]) hcl2
    refine ⟨v, w, hv1, hw1, hv2, hw2, ?_⟩
    intro T hT T2 hT2
    rw [hv3, List.mem_filter] at hT
    rw [hw3, List.mem_filter, multiplyOut_append] at hT2
    obtain ⟨L, hL, R, _, hEq⟩ := (mem_multiply _ _ T2).1 hT2.1
    have hmin : ∀ U ∈ multiplyOut first rest, T.length ≤ U.length := by simpa using hT.2
    rw [hEq]
    exact Nat.le_trans (hmin L hL) (length_le_unionTerm L R)

theorem operator_append_monotone_witness :
    ([[[1], [2]]] : CNF) ≠ [] ∧ (∀ c ∈ ([[[1], [2]]] : CNF), c ≠ []) ∧
      ([[3], [4]] : DNF) ≠ [] ∧
      ∃ v v2, operator [[[1], [2]]] = some v ∧ operator ([[[1], [2]]] ++ [[[3], [4]]]) = some v2 ∧
        v ≠ [] ∧ v2 ≠ [] ∧ ∀ T ∈ v, ∀ T2 ∈ v2, T.length ≤ T2.length :=
  ⟨by decide, by decide, by decide,
    operator_append_monotone [[[1], [2]]] [[3], [4]] (by decide) (by decide) (by decide)⟩

end PetricksMethod
